import Mathlib

/-!
Verification of the bulk REST extraction core (`ArcPy_IngestREST.py`):
chunk planning, extraction retry/backoff with soft-error detection,
payload staging, and the conversion/merge stage.  Machine integers are
modelled as `Nat`/`Int`, response bodies and file names as lists of
characters, and network/file effects as explicit event traces.
-/

/-- Sentinel error body the server emits under internal overload even with
an HTTP-success status (source line 28, `server_error_message`). -/
def server_error_message : List Char :=
  "\x7b\"error\":\x7b\"code\":500,\"message\":\"Error performing query operation\",\"details\":[]\x7d\x7d".data

/-- Fixed inter-request pause in seconds (source line 22,
`query_request_standard_pause`). -/
def query_request_standard_pause : Nat := 10

/-- Hard-coded page-size override used by the main sequence
(source line 23, `record_extraction_hardcode`). -/
def record_extraction_hardcode : Nat := 30000

/-- Fuel-indexed worker for `IterableChunk`: groups the manifest into
consecutive runs of at most `n` identifiers, exactly as the
`zip_longest` grouper idiom of source lines 62-72 does (each row of
`zip_longest` over `n` copies of one iterator takes the next `n`
elements; the trailing `None` fillers are dropped).  The fuel argument
only bounds the recursion depth; it is instantiated with the manifest
length, which always suffices when `1 ≤ n`. -/
def chunkFuel (n : Nat) : Nat → List Int → List (List Int)
  | _, [] => []
  | 0, _ :: _ => []
  | fuel + 1, x :: xs => (x :: xs).take n :: chunkFuel n fuel ((x :: xs).drop n)

/-- IterableChunk (source lines 62-72): divide the ObjectID manifest into
chunks of `ServiceRequestMAX` for processing.  A page size of 0 yields no
chunks, since `zip_longest` over zero iterators yields nothing. -/
def IterableChunk (ServiceRequestMAX : Nat) (ObjectIDManifest : List Int) : List (List Int) :=
  if ServiceRequestMAX = 0 then []
  else chunkFuel ServiceRequestMAX ObjectIDManifest.length ObjectIDManifest

/-- Total iteration count computed and reported by `IterableChunk`
(source lines 65-68): floor division plus one when a remainder exists. -/
def total_iterations (ServiceRequestMAX manifestLen : Nat) : Nat :=
  manifestLen / ServiceRequestMAX + (if manifestLen % ServiceRequestMAX > 0 then 1 else 0)

/-- ObjectID_MIN as taken in the main loop: `objectID_group[0]`
(source line 141). -/
def chunkMin (group : List Int) : Int := group.headD 0

/-- ObjectID_MAX as taken in the main loop: `objectID_group[-1]`
(source line 142). -/
def chunkMax (group : List Int) : Int := group.getLastD 0

/-- Concatenating the chunks reproduces the manifest. -/
theorem chunkFuel_flatten (n : Nat) (hn : 1 ≤ n) :
    ∀ (fuel : Nat) (l : List Int), l.length ≤ fuel → (chunkFuel n fuel l).flatten = l := by
  intro fuel
  induction fuel with
  | zero =>
    intro l hl
    have hnil : l = [] := List.eq_nil_of_length_eq_zero (Nat.le_zero.mp hl)
    subst hnil
    rfl
  | succ f ih =>
    intro l hl
    cases l with
    | nil => rfl
    | cons x xs =>
      have hdrop : ((x :: xs).drop n).length ≤ f := by
        rw [List.length_drop]
        simp only [List.length_cons] at hl ⊢
        omega
      calc (chunkFuel n (f + 1) (x :: xs)).flatten
          = (x :: xs).take n ++ (chunkFuel n f ((x :: xs).drop n)).flatten := by
            rw [chunkFuel]; rw [List.flatten_cons]
        _ = (x :: xs).take n ++ (x :: xs).drop n := by rw [ih _ hdrop]
        _ = x :: xs := List.take_append_drop n (x :: xs)

/-- Every chunk produced is non-empty. -/
theorem chunkFuel_ne_nil (n : Nat) (hn : 1 ≤ n) :
    ∀ (fuel : Nat) (l : List Int), ∀ c ∈ chunkFuel n fuel l, c ≠ [] := by
  intro fuel
  induction fuel with
  | zero =>
    intro l c hc
    cases l with
    | nil => simp [chunkFuel] at hc
    | cons x xs => simp [chunkFuel] at hc
  | succ f ih =>
    intro l c hc
    cases l with
    | nil => simp [chunkFuel] at hc
    | cons x xs =>
      rw [chunkFuel] at hc
      rcases List.mem_cons.mp hc with h | h
      · subst h
        have : n = (n - 1) + 1 := by omega
        rw [this]
        simp [List.take]
      · exact ih _ c h

/-- Number of chunks when the manifest length is an exact multiple of the
page size. -/
theorem chunkFuel_length_of_mul (n : Nat) (hn : 1 ≤ n) :
    ∀ (k fuel : Nat) (l : List Int), l.length = k * n → l.length ≤ fuel →
      (chunkFuel n fuel l).length = k := by
  intro k
  induction k with
  | zero =>
    intro fuel l hlen _
    have hnil : l = [] := List.eq_nil_of_length_eq_zero (by simpa using hlen)
    subst hnil
    cases fuel <;> rfl
  | succ k ih =>
    intro fuel l hlen hfuel
    have hsucc : (k + 1) * n = k * n + n := by ring
    have hpos : 1 ≤ l.length := by omega
    cases l with
    | nil => simp at hpos
    | cons x xs =>
      cases fuel with
      | zero => simp at hfuel
      | succ f =>
        rw [chunkFuel, List.length_cons]
        have hdlen : ((x :: xs).drop n).length = k * n := by
          rw [List.length_drop]
          omega
        have hdle : ((x :: xs).drop n).length ≤ f := by
          rw [List.length_drop]
          simp only [List.length_cons] at hfuel ⊢
          omega
        rw [ih f _ hdlen hdle]

/-- Transfer a chainwise property along a pointwise implication that is
only available for members of the list. -/
theorem chain'_imp_of_mem {α : Type} {R S : α → α → Prop} :
    ∀ {l : List α}, (∀ a ∈ l, ∀ b ∈ l, R a b → S a b) → l.Chain' R → l.Chain' S := by
  intro l
  induction l with
  | nil => intro _ _; exact List.chain'_nil
  | cons a t ih =>
    intro h hc
    cases t with
    | nil => exact List.chain'_singleton a
    | cons b t' =>
      rw [List.chain'_cons] at hc
      rw [List.chain'_cons]
      refine ⟨h a (List.mem_cons_self a _) b (List.mem_cons_of_mem a (List.mem_cons_self b _)) hc.1, ?_⟩
      exact ih (fun x hx y hy => h x (List.mem_cons_of_mem a hx) y (List.mem_cons_of_mem a hy)) hc.2

/-- In a strictly increasing list, every member is at most the value that
`getLast?` reports. -/
theorem mem_le_getLast_of_pairwise :
    ∀ (c : List Int), List.Pairwise (· < ·) c → ∀ x ∈ c, ∀ y, c.getLast? = some y → x ≤ y := by
  intro c
  induction c with
  | nil => simp
  | cons a t ih =>
    intro hp x hx y hy
    cases t with
    | nil =>
      simp only [List.mem_singleton] at hx
      simp only [List.getLast?_singleton, Option.some.injEq] at hy
      omega
    | cons b t' =>
      rw [List.getLast?_cons_cons] at hy
      have hymem : y ∈ b :: t' := List.mem_of_getLast?_eq_some hy
      rcases List.mem_cons.mp hx with h | h
      · subst h
        have := (List.pairwise_cons.mp hp).1 y hymem
        omega
      · exact ih (List.pairwise_cons.mp hp).2 x h y hy

/-- For a non-empty list, `getLast?` returns exactly the value `getLastD`
falls back on. -/
theorem getLast?_eq_getLastD {c : List Int} (h : c ≠ []) :
    c.getLast? = some (c.getLastD 0) := by
  rw [List.getLastD_eq_getLast?, List.getLast?_eq_getLast c h]
  rfl

/-- For a non-empty list, `head?` returns exactly the value `headD` falls
back on. -/
theorem head?_eq_headD {c : List Int} (h : c ≠ []) :
    c.head? = some (c.headD 0) := by
  cases c with
  | nil => exact absurd rfl h
  | cons a t => rfl

/-- In a non-empty strictly increasing chunk, the first element is the
minimum and the last element is the maximum. -/
theorem chunk_first_min_last_max {c : List Int} (hc : c.Chain' (· < ·)) (hne : c ≠ []) :
    ∀ x ∈ c, chunkMin c ≤ x ∧ x ≤ chunkMax c := by
  have hp : List.Pairwise (· < ·) c := List.chain'_iff_pairwise.mp hc
  intro x hx
  constructor
  · cases c with
    | nil => exact absurd rfl hne
    | cons a t =>
      rcases List.mem_cons.mp hx with h | h
      · subst h; exact le_refl _
      · have := (List.pairwise_cons.mp hp).1 x h
        simp only [chunkMin, List.headD_cons]
        omega
  · exact mem_le_getLast_of_pairwise c hp x hx _ (getLast?_eq_getLastD hne)

/-- C1: for every non-empty sorted duplicate-free identifier manifest and
every page size at least 1, the chunk planner (`IterableChunk` plus the
min/max taken in the main loop) produces chunks that exactly partition the
manifest in order: concatenating the chunks in ordinal order yields the
manifest, each chunk is non-empty with `minID` equal to its first element,
`maxID` equal to its last element, `minID ≤ maxID` (the first element is
the minimum and the last the maximum), consecutive chunks are
non-overlapping and gap-free, and for manifest `[5, 8, 9, 12, 40, 41]`
with page size 3 the chunks are `(min=5, max=9)` and `(min=12, max=41)`. -/
theorem C1_chunk_planner_partitions (m : List Int) (n : Nat)
    (hn : 1 ≤ n) (hne : m ≠ []) (hsorted : m.Chain' (· < ·)) :
    (IterableChunk n m).flatten = m ∧
    (∀ c ∈ IterableChunk n m,
      c ≠ [] ∧ (∀ x ∈ c, chunkMin c ≤ x ∧ x ≤ chunkMax c) ∧ chunkMin c ≤ chunkMax c) ∧
    (IterableChunk n m).Chain' (fun c₁ c₂ => chunkMax c₁ < chunkMin c₂) ∧
    (IterableChunk 3 [5, 8, 9, 12, 40, 41]).map (fun c => (chunkMin c, chunkMax c))
      = [(5, 9), (12, 41)] := by
  have hn0 : n ≠ 0 := by omega
  have hIC : IterableChunk n m = chunkFuel n m.length m := by
    simp [IterableChunk, hn0]
  have hflat : (IterableChunk n m).flatten = m := by
    rw [hIC]
    exact chunkFuel_flatten n hn m.length m (le_refl _)
  have hnonnil : ∀ c ∈ IterableChunk n m, c ≠ [] := by
    rw [hIC]
    exact chunkFuel_ne_nil n hn m.length m
  have hnilnotmem : [] ∉ IterableChunk n m := fun h => hnonnil [] h rfl
  have hsf : ((IterableChunk n m).flatten).Chain' (· < ·) := by
    rw [hflat]; exact hsorted
  obtain ⟨heach, hadj⟩ := (List.chain'_flatten hnilnotmem).mp hsf
  refine ⟨hflat, ?_, ?_, by decide⟩
  · intro c hc
    have hcne := hnonnil c hc
    have hbound := chunk_first_min_last_max (heach c hc) hcne
    refine ⟨hcne, hbound, ?_⟩
    obtain ⟨a, t, rfl⟩ := List.exists_cons_of_ne_nil hcne
    have := (hbound a (List.mem_cons_self a t)).2
    simpa [chunkMin] using this
  · refine chain'_imp_of_mem ?_ hadj
    intro c₁ h₁ c₂ h₂ hr
    refine hr (chunkMax c₁) ?_ (chunkMin c₂) ?_
    · rw [Option.mem_def]
      exact getLast?_eq_getLastD (hnonnil c₁ h₁)
    · rw [Option.mem_def]
      exact head?_eq_headD (hnonnil c₂ h₂)

/-- Witness for C1 at manifest `[5, 8, 9, 12, 40, 41]` and page size 3. -/
theorem C1_chunk_planner_partitions_witness :
    (1 ≤ 3 ∧ ([5, 8, 9, 12, 40, 41] : List Int) ≠ [] ∧
      ([5, 8, 9, 12, 40, 41] : List Int).Chain' (· < ·)) ∧
    (IterableChunk 3 [5, 8, 9, 12, 40, 41]).map (fun c => (chunkMin c, chunkMax c))
      = [(5, 9), (12, 41)] :=
  ⟨⟨by decide, by decide, by norm_num [List.chain'_cons, List.chain'_singleton]⟩,
    (C1_chunk_planner_partitions [5, 8, 9, 12, 40, 41] 3 (by decide) (by decide)
      (by norm_num [List.chain'_cons, List.chain'_singleton])).2.2.2⟩

/-- C8: when the manifest length is a positive exact multiple of the page
size, the planner produces exactly `length / pageSize` chunks, none of
them empty (no trailing empty chunk), and the reported total iteration
count equals the number of chunks produced. -/
theorem C8_exact_multiple_chunks (m : List Int) (n k : Nat)
    (hn : 1 ≤ n) (hk : 1 ≤ k) (hlen : m.length = k * n) :
    (IterableChunk n m).length = k ∧
    total_iterations n m.length = (IterableChunk n m).length ∧
    ∀ c ∈ IterableChunk n m, c ≠ [] := by
  have hn0 : n ≠ 0 := by omega
  have hIC : IterableChunk n m = chunkFuel n m.length m := by
    simp [IterableChunk, hn0]
  have hcount : (IterableChunk n m).length = k := by
    rw [hIC]
    exact chunkFuel_length_of_mul n hn k m.length m hlen (le_refl _)
  refine ⟨hcount, ?_, ?_⟩
  · rw [hcount, hlen]
    unfold total_iterations
    rw [Nat.mul_div_cancel k (by omega), Nat.mul_mod_left]
    simp
  · rw [hIC]
    exact chunkFuel_ne_nil n hn m.length m

/-- Witness for C8: a 60-element manifest with page size 30 yields exactly
2 chunks, and the reported iteration count is 2. -/
theorem C8_exact_multiple_chunks_witness :
    (((List.range 60).map (fun i => (i : Int))).length = 2 * 30) ∧
    (IterableChunk 30 ((List.range 60).map (fun i => (i : Int)))).length = 2 :=
  ⟨by decide,
    (C8_exact_multiple_chunks ((List.range 60).map (fun i => (i : Int))) 30 2
      (by decide) (by decide) (by decide)).1⟩

/-- Raw response body, modelled as a list of characters. -/
abbrev Payload := List Char

/-- HTTP response as the extraction client sees it: `ok` is the
transport-level success check `response.ok`, `content` the raw body. -/
structure Response where
  ok : Bool
  content : Payload
deriving DecidableEq

/-- Python substring containment `needle in haystack` over byte strings,
as used by `server_error_message in response.content`
(source lines 81 and 93). -/
def containsSub (needle : Payload) : Payload → Bool
  | [] => needle.isEmpty
  | c :: rest => needle.isPrefixOf (c :: rest) || containsSub needle rest

/-- Substring containment agrees with the infix relation. -/
theorem containsSub_iff_infix (needle : Payload) :
    ∀ haystack : Payload, containsSub needle haystack = true ↔ needle <:+: haystack := by
  intro haystack
  induction haystack with
  | nil =>
    simp only [containsSub, List.isEmpty_iff, List.infix_nil]
  | cons c rest ih =>
    simp only [containsSub, Bool.or_eq_true, List.isPrefixOf_iff_prefix, ih,
      List.infix_cons_iff]

/-- Observable effects of the extraction client, in program order: HTTP
GETs (source lines 80 and 92), the fixed standard pause (line 85), the
doubling backoff sleeps (line 90), and the staged file write
(lines 99-100). -/
inductive Event where
  | request (url : String)
  | standardPause (seconds : Nat)
  | backoff (seconds : Nat)
  | persist (fileName : Payload) (content : Payload)
deriving DecidableEq

/-- Query URL built once per chunk (source lines 77-79); `fields` is the
local `"*"` of line 77 and the where-clause interpolates the field name
and the chunk bounds. -/
def queryURL (ObjectID_FieldName ObjectID_MIN ObjectID_MAX ServiceURL : String) : String :=
  ServiceURL ++ "/query?where=" ++ ObjectID_FieldName ++ " >= " ++ ObjectID_MIN ++ " and "
    ++ ObjectID_FieldName ++ " <= " ++ ObjectID_MAX
    ++ "&returnGeometry=true&outFields=*&f=json"

/-- Base-10 digits of a natural number, least significant first, computed
with explicit fuel so that the kernel can evaluate it. -/
def natDigitsFuel : Nat → Nat → List Nat
  | _, 0 => []
  | 0, _ + 1 => []
  | fuel + 1, n + 1 => (n + 1) % 10 :: natDigitsFuel fuel ((n + 1) / 10)

/-- Base-10 digits of a natural number, least significant first. -/
def natDigits (n : Nat) : List Nat := natDigitsFuel n n

/-- The fuel-based digit function agrees with `Nat.digits 10`. -/
theorem natDigitsFuel_eq_digits :
    ∀ (fuel n : Nat), n ≤ fuel → natDigitsFuel fuel n = Nat.digits 10 n := by
  intro fuel
  induction fuel with
  | zero =>
    intro n hn
    have : n = 0 := by omega
    subst this
    simp [natDigitsFuel, Nat.digits_zero]
  | succ f ih =>
    intro n hn
    cases n with
    | zero => simp [natDigitsFuel, Nat.digits_zero]
    | succ m =>
      rw [natDigitsFuel, Nat.digits_def' (by norm_num : 1 < 10) (Nat.succ_pos m)]
      have hdiv : (m + 1) / 10 ≤ f := by
        have := Nat.div_lt_self (Nat.succ_pos m) (by norm_num : 1 < 10)
        omega
      rw [ih _ hdiv]

/-- The fuel-based digit function agrees with `Nat.digits 10`. -/
theorem natDigits_eq_digits (n : Nat) : natDigits n = Nat.digits 10 n :=
  natDigitsFuel_eq_digits n n (le_refl n)

/-- Decimal representation of a natural number (Python `str`): the base-10
digits, most significant first. -/
def natRepr (n : Nat) : List Char :=
  if n = 0 then ['0'] else ((natDigits n).map Nat.digitChar).reverse

/-- Python `str.zfill`: left-pad with zero characters to the given width. -/
def zfill (width : Nat) (s : List Char) : List Char :=
  List.replicate (width - s.length) '0' ++ s

/-- File name used when persisting a chunk (source line 99):
`str(json_file_iterator).zfill(6) + ".json"`. -/
def jsonChunkFileName (json_file_iterator : Nat) : List Char :=
  zfill 6 (natRepr json_file_iterator) ++ ".json".data

/-- Retry loop of `QueryExtractionRequest` (source lines 86-98), driven by
the list of responses the server returns to the successive retries: while
the response is not OK or the flag is down, double the timer, sleep,
re-issue the identical query URL, and re-classify the body.  Returns
`none` when the supplied response sequence is exhausted before the loop
exits (the source loop would still be retrying). -/
def retryLoop (url : String) (response : Response) (response_flag : Bool) (sleep_timer : Nat) :
    List Response → Option (List Event × Response × Bool)
  | [] =>
    if response.ok && response_flag then some ([], response, response_flag) else none
  | r :: rest =>
    if response.ok && response_flag then some ([], response, response_flag)
    else
      match retryLoop url r (if containsSub server_error_message r.content then false else true)
          (sleep_timer * 2) rest with
      | none => none
      | some (evs, finalResponse, finalFlag) =>
          some (Event.backoff (sleep_timer * 2) :: Event.request url :: evs,
            finalResponse, finalFlag)

/-- QueryExtractionRequest (source lines 74-100): build the query URL,
issue the request, classify the body (the sentinel lowers the global
flag), sleep the standard pause, run the retry loop, and finally write
the response body under the zero-filled `json_file_iterator` name.  The
response list supplies what the server returns for the successive GETs;
`none` means the retry loop never terminated within it.  Returns the
emitted event trace and the final value of the global `response_flag`. -/
def QueryExtractionRequest (response_flag : Bool) (json_file_iterator : Nat)
    (ObjectID_MIN ObjectID_MAX ObjectID_FieldName ServiceURL : String) :
    List Response → Option (List Event × Bool)
  | [] => none
  | r :: rest =>
    let url := queryURL ObjectID_FieldName ObjectID_MIN ObjectID_MAX ServiceURL
    let flag1 := if containsSub server_error_message r.content then false else response_flag
    match retryLoop url r flag1 30 rest with
    | none => none
    | some (evs, finalResponse, finalFlag) =>
        some (Event.request url :: Event.standardPause query_request_standard_pause ::
          (evs ++ [Event.persist (jsonChunkFileName json_file_iterator) finalResponse.content]),
          finalFlag)

/-- Main extraction loop (source lines 140-145): for each chunk take its
first and last identifier, advance `json_file_iterator` by the chunk
length, and call `QueryExtractionRequest`, threading the global
`response_flag`.  The oracle supplies one response sequence per chunk. -/
def mainExtractionLoop (ObjectID_FieldName ServiceURL : String) (response_flag : Bool)
    (json_file_iterator : Nat) :
    List (List Int) → List (List Response) → Option (List Event × Bool)
  | [], _ => some ([], response_flag)
  | _ :: _, [] => none
  | group :: groups, responses :: oracle =>
    match QueryExtractionRequest response_flag (json_file_iterator + group.length)
        (toString (chunkMin group)) (toString (chunkMax group)) ObjectID_FieldName ServiceURL
        responses with
    | none => none
    | some (evs, flag1) =>
        match mainExtractionLoop ObjectID_FieldName ServiceURL flag1
            (json_file_iterator + group.length) groups oracle with
        | none => none
        | some (evs2, flag2) => some (evs ++ evs2, flag2)

/-- Test for the standard inter-request pause event. -/
def isStandardPause : Event → Bool
  | .standardPause _ => true
  | _ => false

/-- Test for an HTTP request event. -/
def isRequest : Event → Bool
  | .request _ => true
  | _ => false

/-- Backoff sleep durations of a trace, in order. -/
def backoffDelays (evs : List Event) : List Nat :=
  evs.filterMap fun e => match e with
    | .backoff t => some t
    | _ => none

/-- File names persisted by a trace, in order. -/
def persistNames (evs : List Event) : List Payload :=
  evs.filterMap fun e => match e with
    | .persist nm _ => some nm
    | _ => none

/-- Payload bodies persisted by a trace, in order. -/
def persistContents (evs : List Event) : List Payload :=
  evs.filterMap fun e => match e with
    | .persist _ c => some c
    | _ => none

/-- Events that occur after the final HTTP request of a trace. -/
def eventsAfterLastRequest (evs : List Event) : List Event :=
  (evs.reverse.takeWhile (fun e => !isRequest e)).reverse

/-- Attempt classification: an attempt succeeds when HTTP reports success
and the body does not carry the sentinel error payload. -/
def attemptSuccess (r : Response) : Bool :=
  r.ok && !(containsSub server_error_message r.content)

/-- The loop guard combined with the sentinel classification equals the
attempt-success test. -/
theorem guard_eq_attemptSuccess (r : Response) :
    (r.ok && (if containsSub server_error_message r.content then false else true))
      = attemptSuccess r := by
  unfold attemptSuccess
  cases hcs : containsSub server_error_message r.content <;> simp [hcs]

/-- Every completed run of the retry loop exits with the flag up and an
HTTP-success response, whatever flag value it was entered with: the guard
of the source `while` can only be left when `response.ok` holds and
`response_flag` is `True`. -/
theorem retryLoop_exit_flag (url : String) :
    ∀ (rest : List Response) (r : Response) (flag : Bool) (t : Nat)
      (evs : List Event) (fr : Response) (fl : Bool),
      retryLoop url r flag t rest = some (evs, fr, fl) → fl = true ∧ fr.ok = true := by
  intro rest
  induction rest with
  | nil =>
    intro r flag t evs fr fl h
    rw [retryLoop] at h
    by_cases hc : (r.ok && flag) = true
    · rw [if_pos hc] at h
      simp only [Option.some.injEq, Prod.mk.injEq] at h
      obtain ⟨-, h2, h3⟩ := h
      subst h2 h3
      simp only [Bool.and_eq_true] at hc
      exact ⟨hc.2, hc.1⟩
    · rw [if_neg hc] at h
      exact absurd h (by simp)
  | cons r2 rs ih =>
    intro r flag t evs fr fl h
    rw [retryLoop] at h
    by_cases hc : (r.ok && flag) = true
    · rw [if_pos hc] at h
      simp only [Option.some.injEq, Prod.mk.injEq] at h
      obtain ⟨-, h2, h3⟩ := h
      subst h2 h3
      simp only [Bool.and_eq_true] at hc
      exact ⟨hc.2, hc.1⟩
    · rw [if_neg hc] at h
      rcases hrec : retryLoop url r2
          (if containsSub server_error_message r2.content then false else true) (t * 2) rs
        with _ | ⟨evs2, fr2, fl2⟩
      · rw [hrec] at h
        exact absurd h (by simp)
      · rw [hrec] at h
        simp only [Option.some.injEq, Prod.mk.injEq] at h
        obtain ⟨-, h2, h3⟩ := h
        subst h2 h3
        exact ih r2 _ _ _ _ _ hrec

/-- Full characterisation of a completed retry loop entered with the flag
reflecting the sentinel classification of the current response: the final
flag is up, the final response is the first successful attempt of the
sequence, the backoff delays double on every consecutive failure starting
from twice the incoming timer, every request goes to the same URL, and
the loop itself emits neither a standard pause nor a file write. -/
theorem retryLoop_spec (url : String) :
    ∀ (rest : List Response) (r : Response) (t : Nat)
      (evs : List Event) (fr : Response) (fl : Bool),
      retryLoop url r (if containsSub server_error_message r.content then false else true) t
          rest = some (evs, fr, fl) →
      fl = true ∧ attemptSuccess fr = true ∧
      ((r :: rest).dropWhile (fun a => !attemptSuccess a)).head? = some fr ∧
      backoffDelays evs
        = (List.range ((r :: rest).takeWhile (fun a => !attemptSuccess a)).length).map
            (fun i => t * 2 ^ (i + 1)) ∧
      (∀ u, Event.request u ∈ evs → u = url) ∧
      evs.countP isStandardPause = 0 ∧
      persistContents evs = [] ∧ persistNames evs = [] := by
  intro rest
  induction rest with
  | nil =>
    intro r t evs fr fl h
    rw [retryLoop, guard_eq_attemptSuccess r] at h
    by_cases hs : attemptSuccess r = true
    · rw [if_pos hs] at h
      simp only [Option.some.injEq, Prod.mk.injEq] at h
      obtain ⟨h1, h2, h3⟩ := h
      subst h1 h2
      have hcs : containsSub server_error_message r.content = false := by
        unfold attemptSuccess at hs
        simp only [Bool.and_eq_true, Bool.not_eq_true'] at hs
        exact hs.2
      refine ⟨?_, hs, ?_, ?_, ?_, ?_, ?_, ?_⟩
      · rw [← h3, hcs]; rfl
      · simp [List.dropWhile_cons, hs]
      · simp [List.takeWhile_cons, hs, backoffDelays]
      · intro u hu; simp at hu
      · rfl
      · rfl
      · rfl
    · rw [if_neg hs] at h
      exact absurd h (by simp)
  | cons r2 rs ih =>
    intro r t evs fr fl h
    rw [retryLoop, guard_eq_attemptSuccess r] at h
    by_cases hs : attemptSuccess r = true
    · rw [if_pos hs] at h
      simp only [Option.some.injEq, Prod.mk.injEq] at h
      obtain ⟨h1, h2, h3⟩ := h
      subst h1 h2
      have hcs : containsSub server_error_message r.content = false := by
        unfold attemptSuccess at hs
        simp only [Bool.and_eq_true, Bool.not_eq_true'] at hs
        exact hs.2
      refine ⟨?_, hs, ?_, ?_, ?_, ?_, ?_, ?_⟩
      · rw [← h3, hcs]; rfl
      · simp [List.dropWhile_cons, hs]
      · simp [List.takeWhile_cons, hs, backoffDelays]
      · intro u hu; simp at hu
      · rfl
      · rfl
      · rfl
    · rw [if_neg hs] at h
      have hsf : attemptSuccess r = false := Bool.eq_false_iff.mpr hs
      rcases hrec : retryLoop url r2
          (if containsSub server_error_message r2.content then false else true) (t * 2) rs
        with _ | ⟨evs2, fr2, fl2⟩
      · rw [hrec] at h
        exact absurd h (by simp)
      · rw [hrec] at h
        simp only [Option.some.injEq, Prod.mk.injEq] at h
        obtain ⟨h1, h2, h3⟩ := h
        subst h1 h2 h3
        obtain ⟨ih1, ih2, ih3, ih4, ih5, ih6, ih7, ih8⟩ := ih r2 (t * 2) evs2 fr2 fl2 hrec
        refine ⟨ih1, ih2, ?_, ?_, ?_, ?_, ?_, ?_⟩
        · simpa [List.dropWhile_cons, hsf] using ih3
        · have htw : ((r :: r2 :: rs).takeWhile (fun a => !attemptSuccess a))
              = r :: ((r2 :: rs).takeWhile (fun a => !attemptSuccess a)) := by
            simp [List.takeWhile_cons, hsf]
          have hbd : backoffDelays (Event.backoff (t * 2) :: Event.request url :: evs2)
              = (t * 2) :: backoffDelays evs2 := by
            simp [backoffDelays]
          rw [hbd, ih4, htw, List.length_cons, List.range_succ_eq_map, List.map_cons,
            List.map_map]
          congr 1
          apply List.map_congr_left
          intro a ha
          simp only [Function.comp_apply, Nat.succ_eq_add_one]
          ring
        · intro u hu
          simp only [List.mem_cons] at hu
          rcases hu with h | h | h
          · simp at h
          · simp only [Event.request.injEq] at h
            exact h
          · exact ih5 u h
        · simp [List.countP_cons, isStandardPause, ih6]
        · simp [persistContents, List.filterMap_cons, persistContents] at ih7 ⊢
          exact ih7
        · simp [persistNames, List.filterMap_cons, persistNames] at ih8 ⊢
          exact ih8

/-- Characterisation of a completed `QueryExtractionRequest` call entered
with the flag up: the final flag is up; the standard pause occurs exactly
once, as the second event — immediately after the first request and
before any retry; every request uses the one query URL built from the
chunk bounds; the backoff delays are `60, 120, 240, ...`, one per leading
failed attempt; and exactly one file is written, under the zero-filled
iterator name, holding the first successful response body, which never
contains the sentinel. -/
theorem QueryExtractionRequest_true_spec (json_file_iterator : Nat)
    (omin omax fieldName serviceURL : String) :
    ∀ (responses : List Response) (evs : List Event) (fl : Bool),
      QueryExtractionRequest true json_file_iterator omin omax fieldName serviceURL responses
        = some (evs, fl) →
      fl = true ∧
      evs.countP isStandardPause = 1 ∧
      evs[1]? = some (Event.standardPause query_request_standard_pause) ∧
      evs.head? = some (Event.request (queryURL fieldName omin omax serviceURL)) ∧
      (∀ u, Event.request u ∈ evs → u = queryURL fieldName omin omax serviceURL) ∧
      backoffDelays evs
        = (List.range ((responses.takeWhile (fun a => !attemptSuccess a)).length)).map
            (fun i => 30 * 2 ^ (i + 1)) ∧
      persistContents evs
        = ((responses.dropWhile (fun a => !attemptSuccess a)).head?.map Response.content).toList ∧
      persistNames evs = [jsonChunkFileName json_file_iterator] ∧
      (∀ c ∈ persistContents evs, containsSub server_error_message c = false) := by
  intro responses evs fl h
  cases responses with
  | nil => exact absurd h (by simp [QueryExtractionRequest])
  | cons r rest =>
    simp only [QueryExtractionRequest] at h
    rcases hrec : retryLoop (queryURL fieldName omin omax serviceURL) r
        (if containsSub server_error_message r.content then false else true) 30 rest
      with _ | ⟨loopEvs, fr, flr⟩
    · rw [hrec] at h
      exact absurd h (by simp)
    · rw [hrec] at h
      simp only [Option.some.injEq, Prod.mk.injEq] at h
      obtain ⟨hevs, hfl⟩ := h
      subst hevs hfl
      obtain ⟨s1, s2, s3, s4, s5, s6, s7, s8⟩ :=
        retryLoop_spec (queryURL fieldName omin omax serviceURL) rest r 30 loopEvs fr flr hrec
      refine ⟨s1, ?_, ?_, ?_, ?_, ?_, ?_, ?_, ?_⟩
      · simp [List.countP_cons, List.countP_append, isStandardPause, s6]
      · simp
      · rfl
      · intro u hu
        simp only [List.mem_cons, List.mem_append, List.mem_singleton] at hu
        rcases hu with h | h | h | h
        · simp only [Event.request.injEq] at h
          exact h
        · simp at h
        · exact s5 u h
        · simp at h
      · have hb : backoffDelays (Event.request (queryURL fieldName omin omax serviceURL) ::
            Event.standardPause query_request_standard_pause ::
            (loopEvs ++ [Event.persist (jsonChunkFileName json_file_iterator) fr.content]))
            = backoffDelays loopEvs := by
          simp [backoffDelays, List.filterMap_append]
        rw [hb, s4]
      · have hp : persistContents (Event.request (queryURL fieldName omin omax serviceURL) ::
            Event.standardPause query_request_standard_pause ::
            (loopEvs ++ [Event.persist (jsonChunkFileName json_file_iterator) fr.content]))
            = persistContents loopEvs ++ [fr.content] := by
          simp [persistContents, List.filterMap_append]
        rw [hp, s7, s3]
        rfl
      · have hp : persistNames (Event.request (queryURL fieldName omin omax serviceURL) ::
            Event.standardPause query_request_standard_pause ::
            (loopEvs ++ [Event.persist (jsonChunkFileName json_file_iterator) fr.content]))
            = persistNames loopEvs ++ [jsonChunkFileName json_file_iterator] := by
          simp [persistNames, List.filterMap_append]
        rw [hp, s8]
        rfl
      · intro c hc
        have hp : persistContents (Event.request (queryURL fieldName omin omax serviceURL) ::
            Event.standardPause query_request_standard_pause ::
            (loopEvs ++ [Event.persist (jsonChunkFileName json_file_iterator) fr.content]))
            = persistContents loopEvs ++ [fr.content] := by
          simp [persistContents, List.filterMap_append]
        rw [hp, s7] at hc
        simp only [List.nil_append, List.mem_singleton] at hc
        subst hc
        unfold attemptSuccess at s2
        simp only [Bool.and_eq_true, Bool.not_eq_true'] at s2
        exact s2.2

/-- Exit value of the global flag after any completed call, whatever value
it was entered with. -/
theorem QueryExtractionRequest_exit_flag :
    ∀ (entryFlag : Bool) (json_file_iterator : Nat)
      (omin omax fieldName serviceURL : String) (responses : List Response)
      (res : List Event × Bool),
      QueryExtractionRequest entryFlag json_file_iterator omin omax fieldName serviceURL
          responses = some res → res.2 = true := by
  intro entryFlag json_file_iterator omin omax fieldName serviceURL responses res h
  cases responses with
  | nil => exact absurd h (by simp [QueryExtractionRequest])
  | cons r rest =>
    simp only [QueryExtractionRequest] at h
    rcases hrec : retryLoop (queryURL fieldName omin omax serviceURL) r
        (if containsSub server_error_message r.content then false else entryFlag) 30 rest
      with _ | ⟨loopEvs, fr, flr⟩
    · rw [hrec] at h
      exact absurd h (by simp)
    · rw [hrec] at h
      simp only [Option.some.injEq] at h
      have := (retryLoop_exit_flag (queryURL fieldName omin omax serviceURL) rest r _ 30
        loopEvs fr flr hrec).1
      rw [← h]
      exact this

/-- The main loop, entered with the flag up, keeps it up across every
chunk (each call re-establishes it) and ends with it up. -/
theorem mainExtractionLoop_flag (fieldName serviceURL : String) :
    ∀ (groups : List (List Int)) (oracle : List (List Response)) (it : Nat)
      (res : List Event × Bool),
      mainExtractionLoop fieldName serviceURL true it groups oracle = some res →
      res.2 = true := by
  intro groups
  induction groups with
  | nil =>
    intro oracle it res h
    simp only [mainExtractionLoop, Option.some.injEq] at h
    rw [← h]
  | cons g gs ih =>
    intro oracle it res h
    cases oracle with
    | nil => exact absurd h (by simp [mainExtractionLoop])
    | cons rs orc =>
      simp only [mainExtractionLoop] at h
      rcases hq : QueryExtractionRequest true (it + g.length) (toString (chunkMin g))
          (toString (chunkMax g)) fieldName serviceURL rs with _ | ⟨evs1, flag1⟩
      · rw [hq] at h
        exact absurd h (by simp)
      · have hflag1 : flag1 = true :=
          QueryExtractionRequest_exit_flag true (it + g.length) (toString (chunkMin g))
            (toString (chunkMax g)) fieldName serviceURL rs (evs1, flag1) hq
        subst hflag1
        rw [hq] at h
        dsimp only at h
        rcases hm : mainExtractionLoop fieldName serviceURL true (it + g.length) gs orc
          with _ | ⟨evs2, flag2⟩
        · rw [hm] at h
          exact absurd h (by simp)
        · rw [hm] at h
          simp only [Option.some.injEq] at h
          have := ih orc (it + g.length) (evs2, flag2) hm
          rw [← h]
          exact this

/-- C10: the process-wide mutable `response_flag` satisfies the invariant
that it is `True` at entry and at exit of every `QueryExtractionRequest`
call: every exit path of the retry loop re-establishes it (the loop guard
can only be left with the flag up), whatever value the call was entered
with, and the main loop — whose initial flag is `True` — therefore enters
every call with the flag `True` and finishes with it `True`; hence the
soft-error classification of a chunk's first attempt is never influenced
by the outcome of a previous chunk's extraction. -/
theorem C10_response_flag_invariant :
    (∀ (entryFlag : Bool) (json_file_iterator : Nat)
        (omin omax fieldName serviceURL : String) (responses : List Response)
        (res : List Event × Bool),
      QueryExtractionRequest entryFlag json_file_iterator omin omax fieldName serviceURL
          responses = some res → res.2 = true) ∧
    (∀ (fieldName serviceURL : String) (groups : List (List Int))
        (oracle : List (List Response)) (res : List Event × Bool),
      mainExtractionLoop fieldName serviceURL true 0 groups oracle = some res →
      res.2 = true) :=
  ⟨QueryExtractionRequest_exit_flag,
    fun fieldName serviceURL groups oracle res h =>
      mainExtractionLoop_flag fieldName serviceURL groups oracle 0 res h⟩

/-- Witness for C10: a call entered with the flag down still exits with
the flag up. -/
theorem C10_response_flag_invariant_witness :
    (QueryExtractionRequest false 1 "1" "2" "f" "s" [⟨true, []⟩, ⟨true, []⟩]
      = some ([Event.request (queryURL "f" "1" "2" "s"),
               Event.standardPause query_request_standard_pause,
               Event.backoff 60, Event.request (queryURL "f" "1" "2" "s"),
               Event.persist (jsonChunkFileName 1) []], true)) ∧
    (([Event.request (queryURL "f" "1" "2" "s"),
       Event.standardPause query_request_standard_pause,
       Event.backoff 60, Event.request (queryURL "f" "1" "2" "s"),
       Event.persist (jsonChunkFileName 1) []], true) : List Event × Bool).2 = true :=
  ⟨by decide,
    C10_response_flag_invariant.1 false 1 "1" "2" "f" "s" [⟨true, []⟩, ⟨true, []⟩]
      ([Event.request (queryURL "f" "1" "2" "s"),
        Event.standardPause query_request_standard_pause,
        Event.backoff 60, Event.request (queryURL "f" "1" "2" "s"),
        Event.persist (jsonChunkFileName 1) []], true) (by decide)⟩

/-- C2 counterexample: for the attempt sequence [soft-error, hard-failure,
success] the trace holds exactly one standard pause, yet zero standard
pauses occur after the final request — the pause is taken right after the
first (soft-error) response, before the retries, refuting the claim that
the fixed inter-request pause is applied after the final successful
response and before returning.  The backoff delays 60 and 120 confirm the
two retries. -/
theorem C2_pause_position_counterexample :
    (QueryExtractionRequest true 3 "5" "9" "objectid" "svc"
        [⟨true, server_error_message⟩, ⟨false, []⟩, ⟨true, []⟩]).map
      (fun p => (p.1.countP isStandardPause,
        (eventsAfterLastRequest p.1).countP isStandardPause, backoffDelays p.1, p.2))
      = some (1, 0, [60, 120], true) := by decide

/-- C2 (amended): the extraction client pauses for the fixed inter-request
interval (10 time-units) exactly once per chunk, but the pause is taken
immediately after the first response — as the second trace event, before
any backoff or retry — rather than after the final success; for the
attempt sequence [soft-error, hard-failure, success] the client retries
exactly twice with strictly increasing doubling backoff delays 60 then
120, the standard pause having been applied after the first (soft-error)
response. -/
theorem C2_single_pause_after_first_attempt
    (json_file_iterator : Nat) (omin omax fieldName serviceURL : String)
    (responses : List Response) (evs : List Event) (fl : Bool)
    (h : QueryExtractionRequest true json_file_iterator omin omax fieldName serviceURL
      responses = some (evs, fl)) :
    evs.countP isStandardPause = 1 ∧
    evs[1]? = some (Event.standardPause query_request_standard_pause) ∧
    (QueryExtractionRequest true 3 "5" "9" "objectid" "svc"
        [⟨true, server_error_message⟩, ⟨false, []⟩, ⟨true, []⟩]).map
      (fun p => backoffDelays p.1) = some [60, 120] := by
  obtain ⟨-, c2, c3, -, -, -, -, -, -⟩ :=
    QueryExtractionRequest_true_spec json_file_iterator omin omax fieldName serviceURL
      responses evs fl h
  exact ⟨c2, c3, by decide⟩

/-- Witness for C2 (amended) on a single clean response. -/
theorem C2_single_pause_after_first_attempt_witness :
    (QueryExtractionRequest true 1 "1" "2" "f" "s" [⟨true, []⟩]
      = some ([Event.request (queryURL "f" "1" "2" "s"),
               Event.standardPause query_request_standard_pause,
               Event.persist (jsonChunkFileName 1) []], true)) ∧
    ([Event.request (queryURL "f" "1" "2" "s"),
      Event.standardPause query_request_standard_pause,
      Event.persist (jsonChunkFileName 1) []].countP isStandardPause = 1) :=
  ⟨by decide,
    (C2_single_pause_after_first_attempt 1 "1" "2" "f" "s" [⟨true, []⟩] _ true (by decide)).1⟩

/-- C4: on every hard failure (non-success HTTP status) or soft failure
(body carrying the sentinel payload), the extraction client retries the
identical query URL — every request event of a completed call carries the
one URL built from the unchanged parameters — sleeping a backoff delay of
`30·2^(i+1)` on the `i`-th consecutive failure, i.e. 60, 120, 240, ...,
doubling every time with no cap and no retry limit, until the first
successful response, whose body is then the one persisted. -/
theorem C4_retry_identical_url_doubling_backoff
    (json_file_iterator : Nat) (omin omax fieldName serviceURL : String)
    (responses : List Response) (evs : List Event) (fl : Bool)
    (h : QueryExtractionRequest true json_file_iterator omin omax fieldName serviceURL
      responses = some (evs, fl)) :
    (∀ u, Event.request u ∈ evs → u = queryURL fieldName omin omax serviceURL) ∧
    backoffDelays evs
      = (List.range ((responses.takeWhile (fun a => !attemptSuccess a)).length)).map
          (fun i => 30 * 2 ^ (i + 1)) ∧
    persistContents evs
      = ((responses.dropWhile (fun a => !attemptSuccess a)).head?.map Response.content).toList := by
  obtain ⟨-, -, -, -, c5, c6, c7, -, -⟩ :=
    QueryExtractionRequest_true_spec json_file_iterator omin omax fieldName serviceURL
      responses evs fl h
  exact ⟨c5, c6, c7⟩

/-- Witness for C4 on [hard-failure, hard-failure, success]: backoff
delays 60 then 120. -/
theorem C4_retry_identical_url_doubling_backoff_witness :
    backoffDelays [Event.request (queryURL "f" "1" "2" "s"),
        Event.standardPause query_request_standard_pause,
        Event.backoff 60, Event.request (queryURL "f" "1" "2" "s"),
        Event.backoff 120, Event.request (queryURL "f" "1" "2" "s"),
        Event.persist (jsonChunkFileName 2) []]
      = (List.range ((([⟨false, []⟩, ⟨false, []⟩, ⟨true, []⟩] : List Response).takeWhile
          (fun a => !attemptSuccess a)).length)).map (fun i => 30 * 2 ^ (i + 1)) :=
  (C4_retry_identical_url_doubling_backoff 2 "1" "2" "f" "s"
    [⟨false, []⟩, ⟨false, []⟩, ⟨true, []⟩]
    [Event.request (queryURL "f" "1" "2" "s"),
     Event.standardPause query_request_standard_pause,
     Event.backoff 60, Event.request (queryURL "f" "1" "2" "s"),
     Event.backoff 120, Event.request (queryURL "f" "1" "2" "s"),
     Event.persist (jsonChunkFileName 2) []] true (by decide)).2.1

/-- C9: soft-failure classification is substring containment over the
whole response body: the test agrees with the infix relation for every
body; a well-formed payload that merely embeds the sentinel bytes inside
its data — and differs from the bare sentinel — is nevertheless rejected
and retried, its payload discarded in favour of the next clean response;
and every persisted body is free of the sentinel bytes. -/
theorem C9_sentinel_substring_classification
    (json_file_iterator : Nat) (omin omax fieldName serviceURL : String)
    (responses : List Response) (evs : List Event) (fl : Bool)
    (h : QueryExtractionRequest true json_file_iterator omin omax fieldName serviceURL
      responses = some (evs, fl)) :
    (∀ body : Payload, containsSub server_error_message body = true ↔
      server_error_message <:+: body) ∧
    (∀ c ∈ persistContents evs, containsSub server_error_message c = false) ∧
    ("\x7b\"data\":\"".data ++ server_error_message ++ "\"\x7d".data ≠ server_error_message) ∧
    ((QueryExtractionRequest true 1 "1" "2" "f" "s"
        [⟨true, "\x7b\"data\":\"".data ++ server_error_message ++ "\"\x7d".data⟩,
         ⟨true, "\x7b\"ok\":true\x7d".data⟩]).map
      (fun p => (persistContents p.1, backoffDelays p.1))
      = some ([("\x7b\"ok\":true\x7d".data : Payload)], [60])) := by
  obtain ⟨-, -, -, -, -, -, -, -, c9⟩ :=
    QueryExtractionRequest_true_spec json_file_iterator omin omax fieldName serviceURL
      responses evs fl h
  exact ⟨fun body => containsSub_iff_infix server_error_message body, c9, by decide, by decide⟩

/-- Witness for C9: a clean single-response call; its persisted body is
sentinel-free. -/
theorem C9_sentinel_substring_classification_witness :
    (QueryExtractionRequest true 1 "1" "2" "f" "s" [⟨true, "\x7b\"ok\":true\x7d".data⟩]
      = some ([Event.request (queryURL "f" "1" "2" "s"),
               Event.standardPause query_request_standard_pause,
               Event.persist (jsonChunkFileName 1) "\x7b\"ok\":true\x7d".data], true)) ∧
    ("\x7b\"data\":\"".data ++ server_error_message ++ "\"\x7d".data ≠ server_error_message) :=
  ⟨by decide,
    (C9_sentinel_substring_classification 1 "1" "2" "f" "s"
      [⟨true, "\x7b\"ok\":true\x7d".data⟩]
      [Event.request (queryURL "f" "1" "2" "s"),
       Event.standardPause query_request_standard_pause,
       Event.persist (jsonChunkFileName 1) "\x7b\"ok\":true\x7d".data] true (by decide)).2.2.1⟩

/-- Value of a big-endian decimal digit list, read left to right. -/
def beVal (ds : List Nat) : Nat := ds.foldl (fun a d => 10 * a + d) 0

/-- Folding decimal digits from an arbitrary accumulator. -/
theorem foldl_digits_acc :
    ∀ (l : List Nat) (acc : Nat),
      l.foldl (fun a d => 10 * a + d) acc
        = acc * 10 ^ l.length + l.foldl (fun a d => 10 * a + d) 0 := by
  intro l
  induction l with
  | nil => intro acc; simp
  | cons d t ih =>
    intro acc
    simp only [List.foldl_cons, List.length_cons]
    rw [ih (10 * acc + d), ih (10 * 0 + d)]
    ring

/-- Head-expansion of the big-endian value. -/
theorem beVal_cons (d : Nat) (t : List Nat) :
    beVal (d :: t) = d * 10 ^ t.length + beVal t := by
  simp only [beVal, List.foldl_cons]
  rw [foldl_digits_acc t (10 * 0 + d)]
  ring_nf

/-- Appending one digit multiplies the value by ten. -/
theorem beVal_append_digit (l : List Nat) (d : Nat) :
    beVal (l ++ [d]) = 10 * beVal l + d := by
  simp only [beVal, List.foldl_append, List.foldl_cons, List.foldl_nil]

/-- A digit list denotes a value below the corresponding power of ten. -/
theorem beVal_lt (l : List Nat) (h : ∀ d ∈ l, d < 10) :
    beVal l < 10 ^ l.length := by
  induction l with
  | nil => simp [beVal]
  | cons d t ih =>
    rw [beVal_cons, List.length_cons]
    have hd : d < 10 := h d (List.mem_cons_self d t)
    have ht : beVal t < 10 ^ t.length :=
      ih (fun x hx => h x (List.mem_cons_of_mem d hx))
    calc d * 10 ^ t.length + beVal t < d * 10 ^ t.length + 10 ^ t.length := by omega
      _ = (d + 1) * 10 ^ t.length := by ring
      _ ≤ 10 * 10 ^ t.length := Nat.mul_le_mul_right _ (by omega)
      _ = 10 ^ (t.length + 1) := by ring

/-- Leading zeros do not change the value. -/
theorem beVal_replicate_zero (k : Nat) (l : List Nat) :
    beVal (List.replicate k 0 ++ l) = beVal l := by
  induction k with
  | zero => rfl
  | succ k ih =>
    simp only [List.replicate_succ, List.cons_append, beVal, List.foldl_cons] at ih ⊢
    have h0 : 10 * 0 + 0 = 0 := by ring
    rw [h0]
    exact ih

/-- The reversed little-endian digits of `Nat.digits` denote the number. -/
theorem beVal_reverse_digits : ∀ (ds : List Nat), beVal ds.reverse = Nat.ofDigits 10 ds := by
  intro ds
  induction ds with
  | nil => simp [beVal, Nat.ofDigits_nil]
  | cons d t ih =>
    rw [List.reverse_cons, beVal_append_digit, ih, Nat.ofDigits_cons]
    ring

/-- Six-digit zero-padded decimal digit list of a number. -/
def sixDigitsOf (k : Nat) : List Nat :=
  List.replicate (6 - (Nat.digits 10 k).length) 0 ++ (Nat.digits 10 k).reverse

/-- The padded digit list denotes the number itself. -/
theorem sixDigitsOf_beVal (k : Nat) : beVal (sixDigitsOf k) = k := by
  rw [sixDigitsOf, beVal_replicate_zero, beVal_reverse_digits, Nat.ofDigits_digits]

/-- All entries of the padded digit list are decimal digits. -/
theorem sixDigitsOf_lt10 (k : Nat) : ∀ d ∈ sixDigitsOf k, d < 10 := by
  intro d hd
  simp only [sixDigitsOf, List.mem_append, List.mem_replicate, List.mem_reverse] at hd
  rcases hd with ⟨-, h⟩ | h
  · omega
  · exact Nat.digits_lt_base (by norm_num) h

/-- For numbers up to 999999 the padded digit list has width six. -/
theorem sixDigitsOf_length (k : Nat) (hk : k ≤ 999999) : (sixDigitsOf k).length = 6 := by
  have hL : (Nat.digits 10 k).length ≤ 6 := by
    by_cases hk0 : k = 0
    · subst hk0
      simp
    · rw [Nat.digits_len 10 k (by norm_num) hk0]
      have : Nat.log 10 k < 6 :=
        Nat.log_lt_of_lt_pow hk0 (by norm_num at hk ⊢; omega)
      omega
  simp only [sixDigitsOf, List.length_append, List.length_replicate, List.length_reverse]
  omega

/-- The zero-filled decimal rendering is the character image of the padded
digit list. -/
theorem zfill_natRepr (k : Nat) :
    zfill 6 (natRepr k) = (sixDigitsOf k).map Nat.digitChar := by
  by_cases hk0 : k = 0
  · subst hk0
    rw [sixDigitsOf, Nat.digits_zero]
    simp only [List.length_nil, Nat.sub_zero, List.reverse_nil, List.append_nil,
      List.map_replicate]
    rw [show Nat.digitChar 0 = '0' from rfl]
    decide
  · rw [natRepr, if_neg hk0, natDigits_eq_digits]
    rw [zfill, sixDigitsOf]
    rw [List.map_append, List.map_replicate]
    rw [show Nat.digitChar 0 = '0' from rfl]
    rw [List.map_reverse]
    rw [List.length_reverse, List.length_map]

/-- Equal-length digit lists compare lexicographically as their values. -/
theorem lex_of_beVal_lt :
    ∀ (l₁ l₂ : List Nat), l₁.length = l₂.length → (∀ d ∈ l₁, d < 10) →
      (∀ d ∈ l₂, d < 10) → beVal l₁ < beVal l₂ → List.Lex (· < ·) l₁ l₂ := by
  intro l₁
  induction l₁ with
  | nil =>
    intro l₂ hlen _ _ hv
    cases l₂ with
    | nil => simp [beVal] at hv
    | cons d t => simp at hlen
  | cons d₁ t₁ ih =>
    intro l₂ hlen h1 h2 hv
    cases l₂ with
    | nil => simp at hlen
    | cons d₂ t₂ =>
      have hlen' : t₁.length = t₂.length := by simpa using hlen
      rcases lt_trichotomy d₁ d₂ with h | h | h
      · exact List.Lex.rel h
      · subst h
        refine List.Lex.cons ?_
        refine ih t₂ hlen' (fun x hx => h1 x (List.mem_cons_of_mem d₁ hx))
          (fun x hx => h2 x (List.mem_cons_of_mem d₁ hx)) ?_
        rw [beVal_cons, beVal_cons, hlen'] at hv
        omega
      · exfalso
        rw [beVal_cons, beVal_cons, hlen'] at hv
        have hb2 : beVal t₂ < 10 ^ t₂.length :=
          beVal_lt t₂ (fun x hx => h2 x (List.mem_cons_of_mem d₂ hx))
        have hstep : d₂ * 10 ^ t₂.length + 10 ^ t₂.length ≤ d₁ * 10 ^ t₂.length := by
          have : (d₂ + 1) * 10 ^ t₂.length ≤ d₁ * 10 ^ t₂.length :=
            Nat.mul_le_mul_right _ (by omega)
          rw [add_mul, one_mul] at this
          exact this
        omega

/-- Mapping digits to their characters preserves lexicographic order. -/
theorem lex_map_digitChar :
    ∀ {l₁ l₂ : List Nat}, List.Lex (· < ·) l₁ l₂ →
      (∀ d ∈ l₁, d < 10) → (∀ d ∈ l₂, d < 10) →
      List.Lex (· < ·) (l₁.map Nat.digitChar) (l₂.map Nat.digitChar) := by
  intro l₁ l₂ hlex
  induction hlex with
  | nil =>
    intro _ _
    simp only [List.map_nil, List.map_cons]
    exact List.Lex.nil
  | @cons a s₁ s₂ h ih =>
    intro h1 h2
    simp only [List.map_cons]
    exact List.Lex.cons (ih (fun d hd => h1 d (List.mem_cons_of_mem a hd))
      (fun d hd => h2 d (List.mem_cons_of_mem a hd)))
  | @rel a₁ s₁ a₂ s₂ h =>
    intro h1 h2
    simp only [List.map_cons]
    refine List.Lex.rel ?_
    have ha₁ : a₁ < 10 := h1 a₁ (List.mem_cons_self _ _)
    have ha₂ : a₂ < 10 := h2 a₂ (List.mem_cons_self _ _)
    have hmono : ∀ x, x < 10 → ∀ y, y < 10 → x < y →
        Nat.digitChar x < Nat.digitChar y := by decide
    exact hmono a₁ ha₁ a₂ ha₂ h

/-- A strict lexicographic comparison of equal-length prefixes survives
appending arbitrary suffixes. -/
theorem lex_append_of_length_eq :
    ∀ {l₁ l₂ : List Char}, List.Lex (· < ·) l₁ l₂ → l₁.length = l₂.length →
      ∀ (t u : List Char), List.Lex (· < ·) (l₁ ++ t) (l₂ ++ u) := by
  intro l₁ l₂ hlex
  induction hlex with
  | nil =>
    intro hlen
    simp at hlen
  | @cons a s₁ s₂ h ih =>
    intro hlen t u
    simp only [List.cons_append]
    exact List.Lex.cons (ih (by simpa using hlen) t u)
  | @rel a₁ s₁ a₂ s₂ h =>
    intro _ t u
    simp only [List.cons_append]
    exact List.Lex.rel h

/-- Staged file names are lexicographically strictly monotone in the
iterator value, up to the six-digit capacity. -/
theorem jsonChunkFileName_lex_mono {a b : Nat} (hab : a < b) (hb : b ≤ 999999) :
    List.Lex (· < ·) (jsonChunkFileName a) (jsonChunkFileName b) := by
  have ha : a ≤ 999999 := by omega
  have hlen : (sixDigitsOf a).length = (sixDigitsOf b).length := by
    rw [sixDigitsOf_length a ha, sixDigitsOf_length b hb]
  have hv : beVal (sixDigitsOf a) < beVal (sixDigitsOf b) := by
    rw [sixDigitsOf_beVal, sixDigitsOf_beVal]
    exact hab
  have hlexd := lex_of_beVal_lt _ _ hlen (sixDigitsOf_lt10 a) (sixDigitsOf_lt10 b) hv
  have hlexc := lex_map_digitChar hlexd (sixDigitsOf_lt10 a) (sixDigitsOf_lt10 b)
  unfold jsonChunkFileName
  rw [zfill_natRepr, zfill_natRepr]
  exact lex_append_of_length_eq hlexc (by simp [hlen]) _ _

/-- Successive values of `json_file_iterator` at the persist of each
chunk: source line 143 adds the chunk length to the running total before
each extraction call. -/
def cumulativeCounts (json_file_iterator : Nat) : List (List Int) → List Nat
  | [] => []
  | g :: gs =>
    (json_file_iterator + g.length) :: cumulativeCounts (json_file_iterator + g.length) gs

/-- The iterator values are the running prefix sums of the chunk sizes. -/
theorem cumulativeCounts_eq_prefix_sums :
    ∀ (groups : List (List Int)) (it : Nat),
      cumulativeCounts it groups
        = (List.range groups.length).map
            (fun i => it + (((groups.take (i + 1)).map List.length).sum)) := by
  intro groups
  induction groups with
  | nil => intro it; rfl
  | cons g gs ih =>
    intro it
    rw [cumulativeCounts, ih (it + g.length), List.length_cons, List.range_succ_eq_map,
      List.map_cons, List.map_map]
    congr 1
    apply List.map_congr_left
    intro a ha
    simp only [Function.comp_apply, Nat.succ_eq_add_one, List.take_succ_cons,
      List.map_cons, List.sum_cons]
    omega

/-- Each iterator value lies strictly above the incoming total and at most
the incoming total plus all chunk sizes. -/
theorem cumulativeCounts_bounds :
    ∀ (groups : List (List Int)) (it : Nat), (∀ g ∈ groups, g ≠ []) →
      ∀ x ∈ cumulativeCounts it groups,
        it < x ∧ x ≤ it + ((groups.map List.length).sum) := by
  intro groups
  induction groups with
  | nil =>
    intro it _ x hx
    simp [cumulativeCounts] at hx
  | cons g gs ih =>
    intro it hne x hx
    rw [cumulativeCounts] at hx
    have hg : 0 < g.length := List.length_pos.mpr (hne g (List.mem_cons_self g gs))
    rcases List.mem_cons.mp hx with h | h
    · subst h
      simp only [List.map_cons, List.sum_cons]
      omega
    · have := ih (it + g.length) (fun g' hg' => hne g' (List.mem_cons_of_mem g hg')) x h
      simp only [List.map_cons, List.sum_cons]
      omega

/-- With all chunks non-empty, the iterator values strictly increase. -/
theorem cumulativeCounts_chain :
    ∀ (groups : List (List Int)) (it : Nat), (∀ g ∈ groups, g ≠ []) →
      List.Chain' (· < ·) (cumulativeCounts it groups) := by
  intro groups
  induction groups with
  | nil => intro it _; exact List.chain'_nil
  | cons g gs ih =>
    intro it hne
    rw [cumulativeCounts, List.chain'_cons']
    have hne' : ∀ g' ∈ gs, g' ≠ [] := fun g' hg' => hne g' (List.mem_cons_of_mem g hg')
    refine ⟨?_, ih (it + g.length) hne'⟩
    intro y hy
    have hmem : y ∈ cumulativeCounts (it + g.length) gs := List.mem_of_mem_head? hy
    exact (cumulativeCounts_bounds gs (it + g.length) hne' y hmem).1

/-- A completed main-loop run persists exactly one file per chunk, named
after the running iterator value. -/
theorem mainExtractionLoop_persistNames (fieldName serviceURL : String) :
    ∀ (groups : List (List Int)) (oracle : List (List Response)) (it : Nat)
      (evs : List Event) (fl : Bool),
      mainExtractionLoop fieldName serviceURL true it groups oracle = some (evs, fl) →
      persistNames evs = (cumulativeCounts it groups).map jsonChunkFileName := by
  intro groups
  induction groups with
  | nil =>
    intro oracle it evs fl h
    simp only [mainExtractionLoop, Option.some.injEq, Prod.mk.injEq] at h
    obtain ⟨h1, -⟩ := h
    subst h1
    rfl
  | cons g gs ih =>
    intro oracle it evs fl h
    cases oracle with
    | nil => exact absurd h (by simp [mainExtractionLoop])
    | cons rs orc =>
      simp only [mainExtractionLoop] at h
      rcases hq : QueryExtractionRequest true (it + g.length) (toString (chunkMin g))
          (toString (chunkMax g)) fieldName serviceURL rs with _ | ⟨evs1, flag1⟩
      · rw [hq] at h
        exact absurd h (by simp)
      · have hflag1 : flag1 = true :=
          QueryExtractionRequest_exit_flag true (it + g.length) (toString (chunkMin g))
            (toString (chunkMax g)) fieldName serviceURL rs (evs1, flag1) hq
        subst hflag1
        rw [hq] at h
        dsimp only at h
        rcases hm : mainExtractionLoop fieldName serviceURL true (it + g.length) gs orc
          with _ | ⟨evs2, flag2⟩
        · rw [hm] at h
          exact absurd h (by simp)
        · rw [hm] at h
          simp only [Option.some.injEq, Prod.mk.injEq] at h
          obtain ⟨h1, -⟩ := h
          subst h1
          obtain ⟨-, -, -, -, -, -, -, hp1, -⟩ :=
            QueryExtractionRequest_true_spec (it + g.length) (toString (chunkMin g))
              (toString (chunkMax g)) fieldName serviceURL rs evs1 true hq
          have hp2 := ih orc (it + g.length) evs2 flag2 hm
          have happ : persistNames (evs1 ++ evs2) = persistNames evs1 ++ persistNames evs2 := by
            simp [persistNames, List.filterMap_append]
          rw [happ, hp1, hp2, cumulativeCounts, List.map_cons]
          rfl

/-- Names persisted by a completed run strictly increase lexicographically
when the manifest fits the six-digit capacity. -/
theorem mainRun_persistNames_lex_chain
    (m : List Int) (n : Nat) (fieldName serviceURL : String)
    (oracle : List (List Response)) (evs : List Event) (fl : Bool)
    (hn : 1 ≤ n) (hlen : m.length ≤ 999999)
    (hrun : mainExtractionLoop fieldName serviceURL true 0 (IterableChunk n m) oracle
      = some (evs, fl)) :
    List.Chain' (fun a b => List.Lex (· < ·) a b) (persistNames evs) := by
  have hn0 : n ≠ 0 := by omega
  have hIC : IterableChunk n m = chunkFuel n m.length m := by
    simp [IterableChunk, hn0]
  have hne : ∀ g ∈ IterableChunk n m, g ≠ [] := by
    rw [hIC]
    exact chunkFuel_ne_nil n hn m.length m
  have hflatten : (IterableChunk n m).flatten = m := by
    rw [hIC]
    exact chunkFuel_flatten n hn m.length m (le_refl _)
  have htotal : ((IterableChunk n m).map List.length).sum = m.length := by
    rw [← List.length_flatten, hflatten]
  have hp := mainExtractionLoop_persistNames fieldName serviceURL (IterableChunk n m)
    oracle 0 evs fl hrun
  rw [hp, List.chain'_map]
  have hchain := cumulativeCounts_chain (IterableChunk n m) 0 hne
  refine chain'_imp_of_mem ?_ hchain
  intro a ha b hb hab
  have hbb := (cumulativeCounts_bounds (IterableChunk n m) 0 hne b hb).2
  exact jsonChunkFileName_lex_mono hab (by omega)

/-- C5 counterexample: for manifest [5, 8, 9, 12, 40, 41] with page size 3
and two clean responses, the staged file names are 000003.json and
000006.json — the cumulative record counts through each chunk — not the
zero-padded 0-based chunk ordinals 000000.json and 000001.json that the
claim asserts. -/
theorem C5_ordinal_name_counterexample :
    (mainExtractionLoop "objectid" "svc" true 0 (IterableChunk 3 [5, 8, 9, 12, 40, 41])
        [[⟨true, []⟩], [⟨true, []⟩]]).map (fun p => persistNames p.1)
      = some ["000003.json".data, "000006.json".data] ∧
    some ["000003.json".data, "000006.json".data]
      ≠ some ((List.range (IterableChunk 3 [5, 8, 9, 12, 40, 41]).length).map
          (fun i => jsonChunkFileName i)) :=
  ⟨by decide, by decide⟩

/-- C5 (amended): for every chunk the successful raw response body is
persisted under a file name equal to the cumulative record count through
that chunk — the running `json_file_iterator`, the prefix sum of the chunk
sizes — zero-padded to six digits; the counts strictly increase, so for
manifests of at most 999999 records the lexical ordering of the staged
file names equals extraction (ordinal) order. -/
theorem C5_cumulative_count_names
    (m : List Int) (n : Nat) (fieldName serviceURL : String)
    (oracle : List (List Response)) (evs : List Event) (fl : Bool)
    (hn : 1 ≤ n) (hlen : m.length ≤ 999999)
    (hrun : mainExtractionLoop fieldName serviceURL true 0 (IterableChunk n m) oracle
      = some (evs, fl)) :
    persistNames evs = (cumulativeCounts 0 (IterableChunk n m)).map jsonChunkFileName ∧
    cumulativeCounts 0 (IterableChunk n m)
      = (List.range (IterableChunk n m).length).map
          (fun i => (((IterableChunk n m).take (i + 1)).map List.length).sum) ∧
    List.Chain' (fun a b => List.Lex (· < ·) a b) (persistNames evs) := by
  have hn0 : n ≠ 0 := by omega
  have hIC : IterableChunk n m = chunkFuel n m.length m := by
    simp [IterableChunk, hn0]
  have hne : ∀ g ∈ IterableChunk n m, g ≠ [] := by
    rw [hIC]
    exact chunkFuel_ne_nil n hn m.length m
  have hflatten : (IterableChunk n m).flatten = m := by
    rw [hIC]
    exact chunkFuel_flatten n hn m.length m (le_refl _)
  have htotal : ((IterableChunk n m).map List.length).sum = m.length := by
    rw [← List.length_flatten, hflatten]
  have hp := mainExtractionLoop_persistNames fieldName serviceURL (IterableChunk n m)
    oracle 0 evs fl hrun
  refine ⟨hp, ?_, ?_⟩
  · have := cumulativeCounts_eq_prefix_sums (IterableChunk n m) 0
    simpa using this
  · exact mainRun_persistNames_lex_chain m n fieldName serviceURL oracle evs fl hn hlen hrun

/-- Witness for C5 (amended) on the two-chunk example run. -/
theorem C5_cumulative_count_names_witness :
    persistNames [Event.request (queryURL "objectid" "5" "9" "svc"),
        Event.standardPause query_request_standard_pause,
        Event.persist (jsonChunkFileName 3) [],
        Event.request (queryURL "objectid" "12" "41" "svc"),
        Event.standardPause query_request_standard_pause,
        Event.persist (jsonChunkFileName 6) []]
      = (cumulativeCounts 0 (IterableChunk 3 [5, 8, 9, 12, 40, 41])).map jsonChunkFileName :=
  (C5_cumulative_count_names [5, 8, 9, 12, 40, 41] 3 "objectid" "svc"
    [[⟨true, []⟩], [⟨true, []⟩]]
    [Event.request (queryURL "objectid" "5" "9" "svc"),
     Event.standardPause query_request_standard_pause,
     Event.persist (jsonChunkFileName 3) [],
     Event.request (queryURL "objectid" "12" "41" "svc"),
     Event.standardPause query_request_standard_pause,
     Event.persist (jsonChunkFileName 6) []] true (by decide) (by decide) (by decide)).1

/-- State of the stores the merge stage touches: the feature classes in
the intermediate workspace (`Intermediate_gdb_JSON.gdb`) and the final
destination feature class — `none` when absent, and when present the list
of intermediate feature classes that were appended into it. -/
structure GISState where
  intermediateFCs : List (List Char)
  finalFC : Option (List (List Char))
deriving DecidableEq

/-- Base name of a staged file: `file.split(".")[0]` (source line 119). -/
def fileBaseName (file : List Char) : List Char :=
  file.takeWhile (fun c => c != '.')

/-- Name of the feature class a staged file is converted into:
`chunk_` followed by the base name (source line 121). -/
def chunkFCName (file : List Char) : List Char :=
  "chunk_".data ++ fileBaseName file

/-- Converter invocations the merge stage performs (source lines
118-121): one `JSONToFeatures` call per directory entry, in
directory-listing order — no sorting is applied to `os.listdir`. -/
def conversionCalls (listing : List (List Char)) : List ((List Char) × (List Char)) :=
  listing.map (fun file => (file, chunkFCName file))

/-- Conversion loop (source lines 118-121): convert each staged file in
listing order into the intermediate workspace; a conversion failure
raises, leaving the state as reached at that point.  `convertOK` tells
which files the external converter accepts. -/
def convertFilesLoop (convertOK : List Char → Bool) :
    List (List Char) → GISState → Except GISState GISState
  | [], s => Except.ok s
  | file :: files, s =>
    if convertOK file then
      convertFilesLoop convertOK files
        { s with intermediateFCs := s.intermediateFCs ++ [chunkFCName file] }
    else Except.error s

/-- ConvertJSONstoFeatureClasses (source lines 108-121): delete and
recreate the intermediate workspace — discarding every previous feature
class — then convert all staged files in directory-listing order. -/
def ConvertJSONstoFeatureClasses (convertOK : List Char → Bool)
    (listing : List (List Char)) (s : GISState) : Except GISState GISState :=
  convertFilesLoop convertOK listing { s with intermediateFCs := [] }

/-- ReplaceFinalFeatureClassWithIntermediateFeatureClasses (source lines
123-130): delete the destination feature class if it exists, then
describe the first intermediate feature class — an index error when there
is none, raised after the destination has already been deleted — and
create the destination from that schema, appending every intermediate
feature class into it. -/
def ReplaceFinalFeatureClassWithIntermediateFeatureClasses (s : GISState) :
    Except GISState GISState :=
  let s1 := if s.finalFC.isSome then { s with finalFC := none } else s
  match s1.intermediateFCs with
  | [] => Except.error s1
  | _ :: _ => Except.ok { s1 with finalFC := some s1.intermediateFCs }

/-- Merge stage of the main sequence (source lines 147-148): conversion
followed by destination replacement; an exception in either step aborts
the run with the state reached at that point. -/
def mergeStage (convertOK : List Char → Bool) (listing : List (List Char))
    (s : GISState) : Except GISState GISState :=
  match ConvertJSONstoFeatureClasses convertOK listing s with
  | Except.error s1 => Except.error s1
  | Except.ok s1 => ReplaceFinalFeatureClassWithIntermediateFeatureClasses s1

/-- Destination feature class after a merge outcome, aborted or not. -/
def finalFCOf : Except GISState GISState → Option (List (List Char))
  | Except.ok s => s.finalFC
  | Except.error s => s.finalFC

/-- Whether the merge outcome is an abort. -/
def isMergeAbort : Except GISState GISState → Bool
  | Except.error _ => true
  | Except.ok _ => false

/-- The conversion loop never touches the destination feature class. -/
theorem convertFilesLoop_finalFC (convertOK : List Char → Bool) :
    ∀ (listing : List (List Char)) (s : GISState),
      finalFCOf (convertFilesLoop convertOK listing s) = s.finalFC := by
  intro listing
  induction listing with
  | nil => intro s; rfl
  | cons file files ih =>
    intro s
    rw [convertFilesLoop]
    by_cases hc : convertOK file = true
    · rw [if_pos hc]
      exact ih _
    · rw [if_neg hc]
      rfl

/-- A failing file makes the conversion loop abort. -/
theorem convertFilesLoop_fails (convertOK : List Char → Bool) :
    ∀ (listing : List (List Char)) (s : GISState),
      (∃ file ∈ listing, convertOK file = false) →
      isMergeAbort (convertFilesLoop convertOK listing s) = true := by
  intro listing
  induction listing with
  | nil =>
    intro s hfail
    obtain ⟨f, hf, -⟩ := hfail
    simp at hf
  | cons file files ih =>
    intro s hfail
    rw [convertFilesLoop]
    by_cases hc : convertOK file = true
    · rw [if_pos hc]
      obtain ⟨f, hf, hff⟩ := hfail
      rcases List.mem_cons.mp hf with h | h
      · subst h
        rw [hc] at hff
        exact absurd hff (by simp)
      · exact ih _ ⟨f, h, hff⟩
    · rw [if_neg hc]
      rfl

/-- C3: if conversion of any staged payload fails, the run aborts before
any mutation of the destination store — the merge outcome is an abort
whose destination feature class is exactly the pre-run one; the
delete/create/append of the destination happens only after every chunk
has converted successfully. -/
theorem C3_conversion_failure_preserves_destination
    (convertOK : List Char → Bool) (listing : List (List Char)) (s : GISState)
    (hfail : ∃ file ∈ listing, convertOK file = false) :
    isMergeAbort (mergeStage convertOK listing s) = true ∧
    finalFCOf (mergeStage convertOK listing s) = s.finalFC := by
  have habort : isMergeAbort (convertFilesLoop convertOK listing
      { s with intermediateFCs := [] }) = true :=
    convertFilesLoop_fails convertOK listing { s with intermediateFCs := [] } hfail
  have hfc : finalFCOf (convertFilesLoop convertOK listing
      { s with intermediateFCs := [] }) = s.finalFC :=
    convertFilesLoop_finalFC convertOK listing { s with intermediateFCs := [] }
  rcases hres : convertFilesLoop convertOK listing { s with intermediateFCs := [] }
    with s1 | s1
  · rw [hres] at hfc
    constructor
    · rw [mergeStage, ConvertJSONstoFeatureClasses, hres]
      rfl
    · rw [mergeStage, ConvertJSONstoFeatureClasses, hres]
      exact hfc
  · rw [hres] at habort
    simp [isMergeAbort] at habort

/-- C6 counterexample: the merge stage consumes the staged payloads in
directory-listing order with no sorting; when the listing enumerates
000006.json before 000003.json — `os.listdir` order is arbitrary — the
conversion sequence is not sorted by ordinal, refuting the claim that the
consumed sequence is ordinal-sorted for every set of staged payloads. -/
theorem C6_listing_order_counterexample :
    (conversionCalls ["000006.json".data, "000003.json".data]).map Prod.fst
      = ["000006.json".data, "000003.json".data] ∧
    ¬ ((conversionCalls ["000006.json".data, "000003.json".data]).map Prod.fst
      = ["000003.json".data, "000006.json".data]) :=
  ⟨by decide, by decide⟩

/-- C6 (amended): the merge stage consumes the staged payloads exactly in
directory-listing order (no sort is applied); when the directory listing
is lexically sorted — as any sorted enumeration of the zero-padded staged
names of a completed run is — the consumed sequence coincides with the
extraction (ordinal) order: a lexically sorted permutation of the staged
names is the staged-name sequence itself. -/
theorem C6_merge_consumes_listing_order
    (m : List Int) (n : Nat) (fieldName serviceURL : String)
    (oracle : List (List Response)) (evs : List Event) (fl : Bool)
    (listing : List (List Char))
    (hn : 1 ≤ n) (hlen : m.length ≤ 999999)
    (hrun : mainExtractionLoop fieldName serviceURL true 0 (IterableChunk n m) oracle
      = some (evs, fl))
    (hperm : listing.Perm (persistNames evs))
    (hsorted : listing.Chain' (fun a b => List.Lex (· < ·) a b)) :
    (conversionCalls listing).map Prod.fst = listing ∧
    listing = persistNames evs := by
  constructor
  · rw [conversionCalls, List.map_map]
    have hid : ∀ x ∈ listing, (Prod.fst ∘ fun file => (file, chunkFCName file)) x = x :=
      fun x _ => rfl
    rw [List.map_congr_left hid]
    simp
  · have hch2 := mainRun_persistNames_lex_chain m n fieldName serviceURL oracle evs fl
      hn hlen hrun
    have hpw1 : listing.Pairwise (List.Lex (· < ·)) :=
      List.chain'_iff_pairwise.mp hsorted
    have hpw2 : (persistNames evs).Pairwise (List.Lex (· < ·)) :=
      List.chain'_iff_pairwise.mp hch2
    have hs1 : listing.Sorted (fun a b => a = b ∨ List.Lex (· < ·) a b) :=
      hpw1.imp (fun h => Or.inr h)
    have hs2 : (persistNames evs).Sorted (fun a b => a = b ∨ List.Lex (· < ·) a b) :=
      hpw2.imp (fun h => Or.inr h)
    haveI : IsAntisymm (List Char) (fun a b => a = b ∨ List.Lex (· < ·) a b) := by
      refine ⟨?_⟩
      intro a b hab hba
      rcases hab with h | h
      · exact h
      · rcases hba with h2 | h2
        · exact h2.symm
        · exact absurd h2 (asymm h)
    exact List.eq_of_perm_of_sorted hperm hs1 hs2

/-- Witness for C6 (amended) on the two-chunk example run with the sorted
listing. -/
theorem C6_merge_consumes_listing_order_witness :
    (["000003.json".data, "000006.json".data] : List (List Char))
      = persistNames [Event.request (queryURL "objectid" "5" "9" "svc"),
          Event.standardPause query_request_standard_pause,
          Event.persist (jsonChunkFileName 3) [],
          Event.request (queryURL "objectid" "12" "41" "svc"),
          Event.standardPause query_request_standard_pause,
          Event.persist (jsonChunkFileName 6) []] :=
  (C6_merge_consumes_listing_order [5, 8, 9, 12, 40, 41] 3 "objectid" "svc"
    [[⟨true, []⟩], [⟨true, []⟩]]
    [Event.request (queryURL "objectid" "5" "9" "svc"),
     Event.standardPause query_request_standard_pause,
     Event.persist (jsonChunkFileName 3) [],
     Event.request (queryURL "objectid" "12" "41" "svc"),
     Event.standardPause query_request_standard_pause,
     Event.persist (jsonChunkFileName 6) []] true
    ["000003.json".data, "000006.json".data]
    (by decide) (by decide) (by decide) (List.Perm.refl _)
    (List.chain'_cons.mpr ⟨by decide, List.chain'_singleton _⟩)).2

/-- C7: the planner yields zero chunks on an empty manifest without error
and the extraction loop completes, but the merge stage then deletes the
existing destination feature class and raises an index error on the empty
intermediate workspace — the zero-chunk run is not treated as success and
the destination store is harmed. -/
theorem C7_empty_manifest_code_bug :
    (∀ pageSize : Nat, IterableChunk pageSize [] = []) ∧
    total_iterations record_extraction_hardcode 0 = 0 ∧
    mainExtractionLoop "f" "s" true 0 (IterableChunk record_extraction_hardcode []) []
      = some ([], true) ∧
    mergeStage (fun _ => true) []
        { intermediateFCs := [], finalFC := some ["dest".data] }
      = Except.error { intermediateFCs := [], finalFC := none } := by
  refine ⟨?_, by decide, by decide, rfl⟩
  intro pageSize
  rw [IterableChunk]
  split
  · rfl
  · rfl

/-- Witness for C3: a failing converter leaves the populated destination
untouched. -/
theorem C3_conversion_failure_preserves_destination_witness :
    finalFCOf (mergeStage (fun _ => false) ["000003.json".data]
        { intermediateFCs := ["stale".data], finalFC := some ["dest".data] })
      = some ["dest".data] :=
  (C3_conversion_failure_preserves_destination (fun _ => false) ["000003.json".data]
    { intermediateFCs := ["stale".data], finalFC := some ["dest".data] }
    ⟨"000003.json".data, by decide, rfl⟩).2
